import Mathlib

set_option maxRecDepth 8192

/-!
Shallow embedding of the core of `src/main.py` (debian-manpage-fetcher):
the path classifier (`is_manpage`, `manpage_name`, `normalize_member`),
the cache data model (`DebianPackage`, `add_member`), the Contents/Packages
scanning and diffing (`rebuild_cache`, `update_cache`), and the per-archive
extraction routine (`get_manpages_from_package`).

Python strings are modelled as Lean `String`s (with helpers over `List Char`),
Python dicts keyed by insertion order as association lists, raised exceptions
as `Except`, and the external world (HTTP download, tar archive, gzip
decompression) as explicit function parameters.
-/

/-- Characters Python `str.rsplit(None, 1)` treats as whitespace (ASCII subset). -/
def isWs (c : Char) : Bool :=
  c = ' ' || c = '\t' || c = '\n' || c = '\r' || c = '\x0b' || c = '\x0c'

/-- `isPfx p l` : the character list `p` starts the list `l` (Python `startswith`). -/
def isPfx : List Char → List Char → Bool
  | [], _ => true
  | _ :: _, [] => false
  | a :: p, b :: l => a == b && isPfx p l

/-- `isSfx p l` : the character list `p` ends the list `l` (Python `endswith`). -/
def isSfx (p l : List Char) : Bool := isPfx p.reverse l.reverse

/-- Substring test, Python `p in l`. -/
def hasSub (p : List Char) : List Char → Bool
  | [] => p.isEmpty
  | c :: t => isPfx p (c :: t) || hasSub p t

/-- Helper for `countSub`: scans left to right; the `Nat` argument is the number
of characters still to skip after a match (non-overlapping occurrences). -/
def countSubAux (p : List Char) : List Char → Nat → Nat
  | [], _ => 0
  | c :: t, 0 => if isPfx p (c :: t) then countSubAux p t (p.length - 1) + 1 else countSubAux p t 0
  | _ :: t, k + 1 => countSubAux p t k

/-- Python `l.count(p)`: number of non-overlapping occurrences of `p` in `l`. -/
def countSub (p l : List Char) : Nat := countSubAux p l 0

/-- `os.path.basename` (posix): everything after the last `'/'`. -/
def bnameL (l : List Char) : List Char := (l.reverse.takeWhile (fun c => !(c == '/'))).reverse

/-- First statement of `manpage_name`: `if '/' in file: file = bname(file)`. -/
def stripDirs (l : List Char) : List Char :=
  if l.any (fun c => c == '/') then bnameL l else l

/-- Second statement of `manpage_name`: `if file.endswith('.gz'): file = file[:-3]`. -/
def stripGz (l : List Char) : List Char :=
  if isSfx ['.', 'g', 'z'] l then l.take (l.length - 3) else l

/-- `manpage_name` from `src/main.py` (list level): take the basename when the
input contains a `'/'`, then strip one trailing `".gz"` suffix. -/
def manpage_nameL (l : List Char) : List Char := stripGz (stripDirs l)

/-- `manpage_name` from `src/main.py` (the spec's `canonicalName`). -/
def manpage_name (s : String) : String := ⟨manpage_nameL s.data⟩

/-- Python `str.rfind(c)`: index of the last occurrence of `c`, `-1` when absent. -/
def rfindIdx (c : Char) (l : List Char) : Int :=
  match l.reverse.findIdx? (fun a => a == c) with
  | none => -1
  | some j => (l.length : Int) - 1 - (j : Int)

/-- `os.path.splitext` (posix): split at the last dot of the final component,
unless every character between the start of that component and the dot is a dot. -/
def splitextL (l : List Char) : List Char × List Char :=
  let sep := rfindIdx '/' l
  let dot := rfindIdx '.' l
  if sep < dot then
    if ((l.take dot.toNat).drop (sep + 1).toNat).any (fun c => !(c == '.')) then
      (l.take dot.toNat, l.drop dot.toNat)
    else (l, [])
  else (l, [])

/-- `is_manpage` from `src/main.py` (list level), the spec's `isDocumentationPath`. -/
def is_manpageL (file : List Char) : Bool :=
  let man_occ := countSub "/man".data file
  if man_occ = 0 then false
  else
    let name := bnameL file
    if !(name.any (fun c => c == '.')) then false
    else
      let name2 := manpage_nameL name
      if !(name2.any (fun c => c == '.')) then false
      else if man_occ > 1 && !(hasSub "/man/man".data file) then false
      else
        let ext := (splitextL name2).2
        match (ext.drop 1).take 1 with
        | [c] => c.isDigit
        | _ => false

/-- `is_manpage` from `src/main.py`. -/
def is_manpage (s : String) : Bool := is_manpageL s.data

/-- `debfile.DebPart._DebPart__normalize_member` (list level): drop a leading
`"./"` or a leading `"/"`. -/
def normalizeMemberL (l : List Char) : List Char :=
  if isPfx ['.', '/'] l then l.drop 2
  else if isPfx ['/'] l then l.drop 1
  else l

/-- `normalize_member` as used in `src/main.py` (the spec's `normalizeMemberPath`). -/
def normalize_member (s : String) : String := ⟨normalizeMemberL s.data⟩

/-- Python `s.endswith(t)` at `String` level. -/
def pyEndsWith (s t : String) : Bool := isSfx t.data s.data

/-- Python `s.rsplit(None, 1)` restricted to the two-element unpacking
`path, location = line.rsplit(None, 1)` of `src/main.py`: `none` models the
`ValueError` raised when the line does not contain two tokens. -/
def pyRsplit1 (l : List Char) : Option (List Char × List Char) :=
  let l1 := (l.reverse.dropWhile isWs).reverse
  let word := (l1.reverse.takeWhile (fun c => !(isWs c))).reverse
  let rest := ((l1.take (l1.length - word.length)).reverse.dropWhile isWs).reverse
  if word.isEmpty || rest.isEmpty then none else some (rest, word)

/-- Python `l.split(sep)` for a one-character separator. -/
def splitChar (sep : Char) : List Char → List (List Char)
  | [] => [[]]
  | c :: t =>
    if c == sep then [] :: splitChar sep t
    else
      match splitChar sep t with
      | h :: r => (c :: h) :: r
      | [] => [[c]]

/-- Exceptions of the modelled Python code. -/
inductive PyErr where
  | valueError
  | keyError
  | indexError
deriving DecidableEq, Repr

/-- `PackageName` namedtuple from `src/main.py`: `(section, package)`. -/
structure PackageName where
  sect : String
  package : String
deriving DecidableEq, Repr

/-- One member record of `DebianPackage['members']` (a nested dict in the
source): `'name'`, `'state'` (0 = Pending, 1 = Extracted, 2 = LinkOnly) and the
optional `'link'` key (absent modelled as `none`). -/
structure MemberRec where
  name : String
  state : Nat
  link : Option String
deriving DecidableEq, Repr

/-- `DebianPackage` from `src/main.py`: an open dict whose keys are modelled as
fields; the ad-hoc keys `'members'`, `'ver'`, `'url'`, `'desc'`, `'todelete'`
may be absent in the source, modelled as an empty list / `none` / `false`. -/
structure DebianPackage where
  flushed : Bool
  members : List (String × MemberRec)
  ver : Option String
  url : Option String
  desc : Option String
  todelete : Bool
deriving DecidableEq, Repr

/-- `DebianPackage.__init__`: a fresh record has `flushed = False` and nothing else. -/
def defaultPackage : DebianPackage := ⟨false, [], none, none, none, false⟩

/-- The pickled cache: dict `PackageName → DebianPackage`, with insertion order. -/
abbrev Cache := List (PackageName × DebianPackage)

/-- One `deb822` paragraph of the Packages file, with the fields the source reads. -/
structure Stanza where
  sect : String
  package : String
  version : String
  filename : String
  description : String
deriving DecidableEq, Repr

/-- Dict lookup in the cache. -/
def lookupC : Cache → PackageName → Option DebianPackage
  | [], _ => none
  | (k', r) :: t, k => if k' = k then some r else lookupC t k

/-- Dict lookup in a members map. -/
def lookupM : List (String × MemberRec) → String → Option MemberRec
  | [], _ => none
  | (k', r) :: t, k => if k' = k then some r else lookupM t k

/-- Dict assignment `cache[k] = r`: replace the entry in place, else append. -/
def setKey : Cache → PackageName → DebianPackage → Cache
  | [], k, r => [(k, r)]
  | (k', r') :: t, k, r => if k' = k then (k, r) :: t else (k', r') :: setKey t k r

/-- `DebianPackage.add_member` from `src/main.py`: normalize the member path;
if it is new, reset `flushed` and insert a Pending member record. -/
def add_member (p : DebianPackage) (member : String) : DebianPackage :=
  let m := normalize_member member
  match lookupM p.members m with
  | some _ => p
  | none =>
    { p with flushed := false,
             members := p.members ++ [(m, ⟨manpage_name m, 0, none⟩)] }

/-- `packages[current_package].add_member(file)` where `packages` is a
`defaultdict(DebianPackage)`: a missing key is created fresh. -/
def addMemberCache (c : Cache) (k : PackageName) (file : String) : Cache :=
  setKey c k (add_member ((lookupC c k).getD defaultPackage) file)

/-- Set insertion for `packages_with_pages.add(current_package)`. -/
def insertSeen (s : List PackageName) (k : PackageName) : List PackageName :=
  if k ∈ s then s else s ++ [k]

/-- `section, package = p.split('/')` for each `p` in `location.split(',')`:
`ValueError` when a location is not exactly `section/package`. -/
def parseLocs (loc : List Char) : Except PyErr (List PackageName) :=
  (splitChar '/' <$> splitChar ',' loc).mapM fun p =>
    match p with
    | [a, b] => .ok ⟨⟨a⟩, ⟨b⟩⟩
    | _ => .error .valueError

/-- One (key, file) registration performed by the Contents loops. -/
def pairAdd (cs : Cache × List PackageName) (k : PackageName) (file : String) :
    Cache × List PackageName :=
  (addMemberCache cs.1 k file, insertSeen cs.2 k)

/-- The Contents-file loop shared by `rebuild_cache` and `update_cache`
(`src/main.py` lines 134-151 and 188-207): skip the header until a line starts
with `"FILE"`, then for each line take `(path, locations)`, drop paths failing
`is_manpage`, and register every `section/package` location.  The
`packages_with_pages` set is threaded even in rebuild mode, where it is unused. -/
def scanAux (inHeader : Bool) (cs : Cache × List PackageName) :
    List String → Except PyErr (Cache × List PackageName)
  | [] => .ok cs
  | line :: rest =>
    if inHeader then
      if isPfx "FILE".data line.data then scanAux false cs rest
      else scanAux true cs rest
    else
      match pyRsplit1 line.data with
      | none => .error .valueError
      | some (fl, loc) =>
        if is_manpage ⟨fl⟩ = false then scanAux false cs rest
        else
          match parseLocs loc with
          | .error e => .error e
          | .ok ks => scanAux false (ks.foldl (fun cs k => pairAdd cs k ⟨fl⟩) cs) rest

/-- The full Contents scan, starting inside the header. -/
def contentsScan (init : Cache) (lines : List String) :
    Except PyErr (Cache × List PackageName) :=
  scanAux true (init, []) lines

/-- The Contents scan started after the header marker has been consumed. -/
def rowsScan (init : Cache) (lines : List String) :
    Except PyErr (Cache × List PackageName) :=
  scanAux false (init, []) lines

/-- The `(PackageName, file)` pairs the Contents loop registers, in order.
On a stream the real scan rejects with `ValueError` this truncates instead;
it is only ever used beneath a hypothesis that the scan succeeded. -/
def scanPairsAux (inHeader : Bool) : List String → List (PackageName × String)
  | [] => []
  | line :: rest =>
    if inHeader then
      if isPfx "FILE".data line.data then scanPairsAux false rest
      else scanPairsAux true rest
    else
      match pyRsplit1 line.data with
      | none => []
      | some (fl, loc) =>
        if is_manpage ⟨fl⟩ = false then scanPairsAux false rest
        else
          match parseLocs loc with
          | .error _ => []
          | .ok ks => ks.map (fun k => (k, (⟨fl⟩ : String))) ++ scanPairsAux false rest

/-- The registrations of a full Contents scan. -/
def scanPairs (lines : List String) : List (PackageName × String) :=
  scanPairsAux true lines

/-- `for k in set(packages) - packages_with_pages: packages[k]['todelete'] = True`
(`src/main.py` lines 209-210). -/
def markToDelete (c : Cache) (seen : List PackageName) : Cache :=
  c.map fun e => if e.1 ∈ seen then e else (e.1, { e.2 with todelete := true })

/-- One Packages stanza of the `update_cache` metadata loop (`src/main.py`
lines 212-223): skip unknown keys; on a version change replace version,
location and description and reset `flushed`.  Reading `packages[p]['ver']`
raises `KeyError` when the cached record never received a version. -/
def updateMetaStep (c : Cache) (b : Stanza) : Except PyErr Cache :=
  let p : PackageName := ⟨b.sect, b.package⟩
  match lookupC c p with
  | none => .ok c
  | some r =>
    match r.ver with
    | none => .error .keyError
    | some v =>
      if v ≠ b.version then
        .ok (setKey c p { r with ver := some b.version, url := some b.filename,
                                 desc := some b.description, flushed := false })
      else .ok c

/-- The `update_cache` metadata loop over all stanzas. -/
def metaFold (c : Cache) : List Stanza → Except PyErr Cache
  | [] => .ok c
  | b :: t =>
    match updateMetaStep c b with
    | .error e => .error e
    | .ok c2 => metaFold c2 t

/-- One Packages stanza of the `rebuild_cache` metadata loop (`src/main.py`
lines 153-162): unconditionally set version, location and description. -/
def rebuildMetaStep (c : Cache) (b : Stanza) : Cache :=
  let p : PackageName := ⟨b.sect, b.package⟩
  match lookupC c p with
  | none => c
  | some r =>
    setKey c p { r with ver := some b.version, url := some b.filename,
                        desc := some b.description }

/-- The `rebuild_cache` metadata loop over all stanzas. -/
def rebuildMetaFold (c : Cache) : List Stanza → Cache
  | [] => c
  | b :: t => rebuildMetaFold (rebuildMetaStep c b) t

/-- `DebianRepo.rebuild_cache` (`src/main.py` lines 124-165), as a pure function
from the text of the two index files to the pickled cache; file/dir handling
is external I/O and omitted. -/
def rebuild_cache (contents : List String) (stanzas : List Stanza) :
    Except PyErr Cache :=
  match contentsScan [] contents with
  | .error e => .error e
  | .ok (c, _) => .ok (rebuildMetaFold c stanzas)

/-- `DebianRepo.update_cache` (`src/main.py` lines 174-226) on an existing
loaded cache: Contents scan over the old cache, mark disappeared archives
`todelete`, then the metadata version-diff loop.  (When no cache file exists
the source falls back to `rebuild_cache`; that branch is file I/O.) -/
def update_cache (cache : Cache) (contents : List String) (stanzas : List Stanza) :
    Except PyErr Cache :=
  match contentsScan cache contents with
  | .error e => .error e
  | .ok (c1, seen) => metaFold (markToDelete c1 seen) stanzas

/-- One entry of the inner data container, as `get_manpages_from_package` sees
it: `issym`/`linkname` come from `data_file.tgz().getmember('./' + member)`
(modelled total: an entry with no descriptor at all would raise an uncaught
`KeyError` and abort the whole call, a path outside the specified behavior),
and `contents` models `data_file.get_file(member)` — `none` is the `KeyError`
the member loop catches. -/
structure TarEntry where
  issym : Bool
  linkname : String
  contents : Option String
deriving Repr

/-- The member loop of `get_manpages_from_package` (`src/main.py` lines
335-367).  `gz` models `gzip.GzipFile(...).read()` (external decompressor);
`tar` models the opened data container.  Returns the updated members (in
place), the `(display name, bytes)` files written, and whether the loop was
abandoned by the `return True` on a missing non-symlink member. -/
def membersLoop (gz : String → String) (tar : String → TarEntry) :
    List (String × MemberRec) → List (String × MemberRec) × List (String × String) × Bool
  | [] => ([], [], false)
  | (k, v) :: rest =>
    if v.state ≠ 0 then
      let r := membersLoop gz tar rest
      ((k, v) :: r.1, r.2.1, r.2.2)
    else
      match (tar k).contents with
      | none =>
        if (tar k).issym then
          let r := membersLoop gz tar rest
          ((k, { v with state := 2 }) :: r.1, r.2.1, r.2.2)
        else
          ((k, v) :: rest, [], true)
      | some c =>
        let c2 := if pyEndsWith k ".gz" then gz c else c
        let v2 := if (tar k).issym then { v with link := some (manpage_name (tar k).linkname) } else v
        let r := membersLoop gz tar rest
        ((k, { v2 with state := 1 }) :: r.1, (v.name, c2) :: r.2.1, r.2.2)

/-- The member whose processing abandons the loop: Pending, entry content
unreadable, and the descriptor is not a symbolic link. -/
def abortsP (tar : String → TarEntry) (kv : String × MemberRec) : Bool :=
  kv.2.state == 0 && (tar kv.1).contents.isNone && !(tar kv.1).issym

/-- The pointwise effect of one non-abandoning iteration of the member loop on
the member record (the written file, which alone involves the decompressor, is
not part of it). -/
def memberStep (tar : String → TarEntry)
    (kv : String × MemberRec) : String × MemberRec :=
  if kv.2.state ≠ 0 then kv
  else
    match (tar kv.1).contents with
    | none => (kv.1, { kv.2 with state := 2 })
    | some _ =>
      let v2 := if (tar kv.1).issym then
                  { kv.2 with link := some (manpage_name (tar kv.1).linkname) }
                else kv.2
      (kv.1, { v2 with state := 1 })

/-- Observable outcome of `get_manpages_from_package` on one archive record:
the updated record, the files written under the archive's output directory,
whether the `mkstemp` temporary file was created and whether it was
`os.unlink`ed before returning, and the Python return value (`True` or `None`). -/
structure ProcResult where
  record : DebianPackage
  written : List (String × String)
  tmpCreated : Bool
  tmpDeleted : Bool
  ret : Option Bool
deriving Repr

/-- `get_manpages_from_package` (`src/main.py` lines 303-369) acting on the
resolved archive record `cp`: early return when already flushed (before the
temporary file is created); `openOk` models `debfile.DebFile(tmpfile).data`
succeeding — on failure the temporary file is unlinked and `None` returned;
then the member loop, whose abandonment returns `True` immediately while a
completed loop sets `flushed` (the `for`/`else`) and unlinks the temporary
file. -/
def processRecord (gz : String → String) (tar : String → TarEntry)
    (openOk : Bool) (cp : DebianPackage) : ProcResult :=
  if cp.flushed then ⟨cp, [], false, false, some true⟩
  else if openOk = false then ⟨cp, [], true, true, none⟩
  else
    let r := membersLoop gz tar cp.members
    if r.2.2 then ⟨{ cp with members := r.1 }, r.2.1, true, false, some true⟩
    else ⟨{ cp with members := r.1, flushed := true }, r.2.1, true, true, none⟩

/-- Outcome of a full `get_manpages_from_package(package)` call: whether the
per-archive output directory was ensured to exist, and either the processing
result or the exception escaping the call. -/
structure FetchOutcome where
  dirCreated : Bool
  result : Except PyErr ProcResult

/-- `get_manpages_from_package` from the archive name (`src/main.py` lines
303-317): create the output directory, then
`[sp for sp in packages if sp.package == package][0]` — the first cache key
with the given package name, an `IndexError` when there is none — and process
the record found. -/
def get_manpages_from_package (gz : String → String) (tar : String → TarEntry)
    (openOk : Bool) (cache : Cache) (package : String) : FetchOutcome :=
  match cache.find? (fun sp => sp.1.package == package) with
  | none => ⟨true, .error .indexError⟩
  | some sp => ⟨true, .ok (processRecord gz tar openOk sp.2)⟩

/-- Decidable form of "this scan registration hits an already-cached member":
the registered key is cached, and the normalized member path is already a key
of its members map. -/
def memberKnown (cache : Cache) (kf : PackageName × String) : Bool :=
  match lookupC cache kf.1 with
  | some r => (lookupM r.members (normalize_member kf.2)).isSome
  | none => false

/-- Decidable form of "the stanza reports the version already cached for its
key" (vacuously true for keys not in the cache, which the metadata loop skips). -/
def verMatches (cache : Cache) (b : Stanza) : Bool :=
  match lookupC cache ⟨b.sect, b.package⟩ with
  | some r => r.ver == some b.version
  | none => true

/-! Concrete data used by the per-claim counterexamples and witnesses. -/

/-- Archive for C1: member `a.1` is a symlink whose content cannot be read,
member `b.1` a symlink whose content can. -/
def exTar1 : String → TarEntry := fun s =>
  if s = "a.1" then ⟨true, "t/x.1.gz", none⟩ else ⟨true, "u/y.1.gz", some "data"⟩

/-- Cached record for C1 with both members Pending. -/
def exCp1 : DebianPackage :=
  ⟨false, [("a.1", ⟨"a.1", 0, none⟩), ("b.1", ⟨"b.1", 0, none⟩)],
   some "1", some "u", some "d", false⟩

/-- Archive for C2: only `good.1` has readable content; everything else is a
missing non-symlink entry. -/
def exTar2 : String → TarEntry := fun s =>
  if s = "good.1" then ⟨false, "", some "data"⟩ else ⟨false, "", none⟩

/-- Cached record for C2: one extractable member, then a missing non-link
member, then a further Pending member. -/
def exCp2 : DebianPackage :=
  ⟨false, [("good.1", ⟨"good.1", 0, none⟩), ("bad.1", ⟨"bad.1", 0, none⟩),
           ("rest.1", ⟨"rest.1", 0, none⟩)],
   some "1", some "u", some "d", false⟩

/-- Archive for C9: every entry is a missing non-symlink. -/
def exTar9 : String → TarEntry := fun _ => ⟨false, "", none⟩

/-- Archive for C9's good path: every entry has readable content. -/
def exTar9ok : String → TarEntry := fun _ => ⟨false, "", some "data"⟩

/-- Cached record for C9 with one Pending member. -/
def exCp9 : DebianPackage :=
  ⟨false, [("m.1", ⟨"m.1", 0, none⟩)], some "1", some "u", some "d", false⟩

/-- Cache for C10: two sections share the package name `foo`. -/
def exCache10 : Cache :=
  [(⟨"admin", "foo"⟩, ⟨true, [], some "1", some "a", some "x", false⟩),
   (⟨"utils", "foo"⟩, ⟨false, [], some "2", some "b", some "y", false⟩)]

/-- Key for the C3 witness. -/
def exK3 : PackageName := ⟨"doc", "ls"⟩

/-- Cached record for the C3 witness, at version `"1"`. -/
def exR3 : DebianPackage :=
  ⟨true, [("usr/share/man/man1/ls.1.gz", ⟨"ls.1", 1, none⟩)],
   some "1", some "u", some "d", false⟩

/-- Cache for the C3 witness. -/
def exCache3 : Cache := [(exK3, exR3)]

/-- Stanza for the C3 witness, reporting version `"2"`. -/
def exS3 : Stanza := ⟨"doc", "ls", "2", "pool/ls.deb", "GNU ls"⟩

/-- Result of `update_cache` on the C3 witness data. -/
def exOut3 : Cache :=
  [(exK3, ⟨false, [("usr/share/man/man1/ls.1.gz", ⟨"ls.1", 1, none⟩)],
           some "2", some "pool/ls.deb", some "GNU ls", true⟩)]

/-- Key for the C6 witness. -/
def exK6 : PackageName := ⟨"doc", "ls"⟩

/-- Cached record for the C6 witness. -/
def exR6 : DebianPackage :=
  ⟨true, [("usr/share/man/man1/ls.1.gz", ⟨"ls.1", 1, none⟩)],
   some "1", some "u", some "d", false⟩

/-- Cache for the C6 witness. -/
def exCache6 : Cache := [(exK6, exR6)]

/-- Stanza for the C6 witness, reporting the cached version. -/
def exS6 : Stanza := ⟨"doc", "ls", "1", "u", "d"⟩

/-- Result of `update_cache` on the C6 witness data. -/
def exOut6 : Cache :=
  [(exK6, ⟨true, [("usr/share/man/man1/ls.1.gz", ⟨"ls.1", 1, none⟩)],
           some "1", some "u", some "d", true⟩)]

/-- Contents row for the C7 witness. -/
def exRow7 : String := "usr/share/man/man1/ls.1.gz   doc/ls"

/-- Contents stream for the C7 witness: header, marker, one qualifying row. -/
def exContents7 : List String := ["garbage header", "FILE LOCATION", exRow7]

/-- Key for the C7 witness. -/
def exK7 : PackageName := ⟨"doc", "ls"⟩

/-- Cached record for the C7 witness, already holding the row's member. -/
def exR7 : DebianPackage :=
  ⟨true, [("usr/share/man/man1/ls.1.gz", ⟨"ls.1", 1, none⟩)],
   some "1", some "u", some "d", false⟩

/-- Cache for the C7 witness, already reflecting `exContents7`. -/
def exCache7 : Cache := [(exK7, exR7)]

/-- Stanza for the C7 witness, reporting the cached version. -/
def exS7 : Stanza := ⟨"doc", "ls", "1", "u", "d"⟩

/-! ## Theorems -/

/-- C5: the documentation-path predicate `is_manpage` accepts
`/usr/share/man/man1/ls.1.gz`, rejects the localized
`/usr/share/man/fr/man1/ls.1.gz` (no direct `/man/man` segment), rejects
`/usr/bin/ls`, and rejects `/usr/share/man/man1/ls` (no digit-led extension). -/
theorem C5_is_manpage_examples :
    is_manpage "/usr/share/man/man1/ls.1.gz" = true ∧
    is_manpage "/usr/share/man/fr/man1/ls.1.gz" = false ∧
    is_manpage "/usr/bin/ls" = false ∧
    is_manpage "/usr/share/man/man1/ls" = false := by
  decide

/-- C4 (counterexample): `manpage_name` is not idempotent — it strips only one
trailing `.gz`, so on `"ls.1.gz.gz"` a second application strips again. -/
theorem C4_counterexample :
    manpage_name (manpage_name "ls.1.gz.gz") ≠ manpage_name "ls.1.gz.gz" := by
  decide

theorem mem_takeWhile_pred {p : Char → Bool} :
    ∀ {l : List Char} {a : Char}, a ∈ l.takeWhile p → p a = true := by
  intro l
  induction l with
  | nil => intro a h; simp [List.takeWhile] at h
  | cons c t ih =>
    intro a h
    by_cases hc : p c = true
    · rw [List.takeWhile_cons_of_pos hc] at h
      rcases List.mem_cons.mp h with rfl | h'
      · exact hc
      · exact ih h'
    · rw [List.takeWhile_cons_of_neg hc] at h
      simp at h

theorem bnameL_noSlash (l : List Char) :
    (bnameL l).any (fun c => c == '/') = false := by
  rw [List.any_eq_false]
  intro c hc
  rw [bnameL, List.mem_reverse] at hc
  have := mem_takeWhile_pred hc
  simpa using this

theorem take_any_false {q : Char → Bool} {l : List Char} (h : l.any q = false)
    (n : Nat) : (l.take n).any q = false := by
  rw [List.any_eq_false] at h ⊢
  intro c hc
  exact h c (List.mem_of_mem_take hc)

theorem stripDirs_noSlash (l : List Char) :
    (stripDirs l).any (fun c => c == '/') = false := by
  rw [stripDirs]
  by_cases h : l.any (fun c => c == '/') = true
  · rw [if_pos h]; exact bnameL_noSlash l
  · rw [if_neg h]; exact Bool.eq_false_iff.mpr h

theorem manpage_nameL_noSlash (l : List Char) :
    (manpage_nameL l).any (fun c => c == '/') = false := by
  rw [manpage_nameL, stripGz]
  by_cases h : isSfx ['.', 'g', 'z'] (stripDirs l) = true
  · rw [if_pos h]; exact take_any_false (stripDirs_noSlash l) _
  · rw [if_neg h]; exact stripDirs_noSlash l

/-- C4 (amended): `manpage_name` is idempotent on every input whose image does
not itself end in `".gz"` (i.e. whose basename does not end in `".gz.gz"`);
on such images the second application strips nothing and changes nothing. -/
theorem C4_manpage_name_idempotent (x : String)
    (h : pyEndsWith (manpage_name x) ".gz" = false) :
    manpage_name (manpage_name x) = manpage_name x := by
  have hsfx : isSfx ['.', 'g', 'z'] (manpage_nameL x.data) = false := h
  have hns : (manpage_nameL x.data).any (fun c => c == '/') = false :=
    manpage_nameL_noSlash x.data
  show (⟨manpage_nameL (manpage_nameL x.data)⟩ : String) = ⟨manpage_nameL x.data⟩
  rw [manpage_nameL, stripDirs, hns]
  simp only [Bool.false_eq_true, if_false]
  rw [stripGz, hsfx]
  simp

/-- Witness for C4: idempotence at a real manpage path, whose canonical name
`"ls.1"` does not end in `".gz"`. -/
theorem C4_manpage_name_idempotent_witness :
    manpage_name (manpage_name "usr/share/man/man1/ls.1.gz") =
      manpage_name "usr/share/man/man1/ls.1.gz" :=
  C4_manpage_name_idempotent "usr/share/man/man1/ls.1.gz" (by decide)

/-- C8 (counterexample): a stream consisting of a single qualifying row and no
header-marker line produces an *empty* cache — the loop stays in header mode
until a line starting with `"FILE"` appears, so the marker is required, not
optional. -/
theorem C8_counterexample :
    is_manpage "usr/share/man/man1/ls.1.gz" = true ∧
    rebuild_cache ["usr/share/man/man1/ls.1.gz   doc/ls"] [] = .ok [] := by
  exact ⟨by decide, rfl⟩

theorem scanAux_header (marker : String) (rows : List String) :
    ∀ (header : List String) (cs : Cache × List PackageName),
      (∀ l ∈ header, isPfx "FILE".data l.data = false) →
      isPfx "FILE".data marker.data = true →
      scanAux true cs (header ++ marker :: rows) = scanAux false cs rows := by
  intro header
  induction header with
  | nil =>
    intro cs _ hm
    rw [List.nil_append, scanAux, if_pos rfl, hm, if_pos rfl]
  | cons l t ih =>
    intro cs hh hm
    have hl : isPfx "FILE".data l.data = false := hh l (List.mem_cons_self l t)
    rw [List.cons_append, scanAux, if_pos rfl, hl]
    simp only [Bool.false_eq_true, if_false]
    exact ih cs (fun x hx => hh x (List.mem_cons_of_mem l hx)) hm

theorem scanAux_no_marker :
    ∀ (lines : List String) (cs : Cache × List PackageName),
      (∀ l ∈ lines, isPfx "FILE".data l.data = false) →
      scanAux true cs lines = .ok cs := by
  intro lines
  induction lines with
  | nil => intro cs _; rfl
  | cons l t ih =>
    intro cs hh
    have hl : isPfx "FILE".data l.data = false := hh l (List.mem_cons_self l t)
    rw [scanAux, if_pos rfl, hl]
    simp only [Bool.false_eq_true, if_false]
    exact ih cs (fun x hx => hh x (List.mem_cons_of_mem l hx))

/-- C8 (amended): the header marker is required, not optional: the Contents
loop registers rows only after the first line beginning with `"FILE"` — a
stream of the form `header ++ marker :: rows` (no header line starting with
the marker token, the marker line starting with it) is processed exactly like
`rows` alone, and a stream containing no marker line at all registers nothing
(the cache is returned unchanged and the seen-set empty). -/
theorem C8_header_marker_required (init : Cache) (header : List String)
    (marker : String) (rows : List String) (lines : List String)
    (hh : ∀ l ∈ header, isPfx "FILE".data l.data = false)
    (hm : isPfx "FILE".data marker.data = true)
    (hn : ∀ l ∈ lines, isPfx "FILE".data l.data = false) :
    contentsScan init (header ++ marker :: rows) = rowsScan init rows ∧
    contentsScan init lines = .ok (init, []) := by
  constructor
  · exact scanAux_header marker rows header (init, []) hh hm
  · exact scanAux_no_marker lines (init, []) hn

/-- Witness for C8: with a two-line header the row is processed as if the
header were absent, and the same row alone (no marker) registers nothing. -/
theorem C8_header_marker_required_witness :
    contentsScan [] (["hello", "FILE LOCATION"] ++
        ["usr/share/man/man1/ls.1.gz   doc/ls"]) =
      rowsScan [] ["usr/share/man/man1/ls.1.gz   doc/ls"] ∧
    contentsScan [] ["usr/share/man/man1/ls.1.gz   doc/ls"] = .ok ([], []) := by
  have h := C8_header_marker_required [] ["hello"] "FILE LOCATION"
    ["usr/share/man/man1/ls.1.gz   doc/ls"]
    ["usr/share/man/man1/ls.1.gz   doc/ls"]
    (by decide) (by decide) (by decide)
  exact h

/-- C9 (code bug): on the abandonment exit path — a Pending member whose entry
content cannot be read and which is not a symbolic link — the `return True` at
`src/main.py` line 350 skips the `os.unlink(tmpfile)` at line 369, so the
temporary file created in step 2 is *not* deleted; on the archive-open-failure
and successful-completion paths it is. -/
theorem C9_tmpfile_leaked_on_abandon :
    ((processRecord id exTar9 true exCp9).tmpCreated = true ∧
     (processRecord id exTar9 true exCp9).tmpDeleted = false) ∧
    (processRecord id exTar9 false exCp9).tmpDeleted = true ∧
    (processRecord id exTar9ok true exCp9).tmpDeleted = true := by
  decide

/-- C10: `get_manpages_from_package` always ensures the per-archive output
directory first; when some cache key has the requested package name the first
such entry's record is processed (the lookup cannot fail), and when none has
it the call raises `IndexError` (after the directory was already created)
instead of returning as a no-op. -/
theorem C10_first_match_or_index_error (gz : String → String)
    (tar : String → TarEntry) (openOk : Bool) (cache : Cache) (package : String) :
    (get_manpages_from_package gz tar openOk cache package).dirCreated = true ∧
    ((∃ sp ∈ cache, sp.1.package = package) →
       ∃ sp, cache.find? (fun e => e.1.package == package) = some sp ∧
         (get_manpages_from_package gz tar openOk cache package).result =
           .ok (processRecord gz tar openOk sp.2)) ∧
    ((∀ sp ∈ cache, sp.1.package ≠ package) →
       (get_manpages_from_package gz tar openOk cache package).result =
         .error .indexError) := by
  cases hf : cache.find? (fun e => e.1.package == package) with
  | none =>
    refine ⟨by simp [get_manpages_from_package, hf], ?_, ?_⟩
    · rintro ⟨sp, hsp, heq⟩
      have := List.find?_eq_none.mp hf sp hsp
      simp [heq] at this
    · intro _
      simp [get_manpages_from_package, hf]
  | some sp =>
    refine ⟨by simp [get_manpages_from_package, hf], ?_, ?_⟩
    · intro _
      exact ⟨sp, rfl, by simp [get_manpages_from_package, hf]⟩
    · intro hall
      have h1 := List.find?_some hf
      have h2 : sp ∈ cache := List.mem_of_find?_eq_some hf
      exact absurd (by simpa using h1) (hall sp h2)

/-- Witness for C10: two cache keys share the package name `"foo"`; the first
one (insertion order) is resolved and processed. -/
theorem C10_first_match_or_index_error_witness :
    ∃ sp, exCache10.find? (fun e => e.1.package == "foo") = some sp ∧
      (get_manpages_from_package id exTar9 true exCache10 "foo").result =
        .ok (processRecord id exTar9 true sp.2) :=
  (C10_first_match_or_index_error id exTar9 true exCache10 "foo").2.1
    ⟨(⟨"admin", "foo"⟩, ⟨true, [], some "1", some "a", some "x", false⟩),
     by decide, rfl⟩

theorem loop_cons_abort (gz : String → String) (tar : String → TarEntry)
    (k : String) (v : MemberRec) (t : List (String × MemberRec))
    (hab : abortsP tar (k, v) = true) :
    membersLoop gz tar ((k, v) :: t) = ((k, v) :: t, [], true) := by
  rw [abortsP] at hab
  simp only [Bool.and_eq_true, Bool.not_eq_true', beq_iff_eq,
    Option.isNone_iff_eq_none] at hab
  obtain ⟨⟨hs, hc⟩, hy⟩ := hab
  rw [membersLoop, if_neg (by simp [hs]), hc, hy]
  simp

theorem loop_cons_keep (gz : String → String) (tar : String → TarEntry)
    (k : String) (v : MemberRec) (t : List (String × MemberRec))
    (hab : abortsP tar (k, v) = false) :
    (membersLoop gz tar ((k, v) :: t)).1 =
      memberStep tar (k, v) :: (membersLoop gz tar t).1 ∧
    (membersLoop gz tar ((k, v) :: t)).2.2 = (membersLoop gz tar t).2.2 := by
  by_cases hs : v.state ≠ 0
  · rw [membersLoop, if_pos hs, memberStep, if_pos hs]
    exact ⟨rfl, rfl⟩
  · have hs0 : v.state = 0 := not_not.mp hs
    cases hc : (tar k).contents with
    | none =>
      cases hsym : (tar k).issym with
      | false => simp [abortsP, hs0, hc, hsym] at hab
      | true =>
        rw [membersLoop, if_neg hs, hc, hsym, memberStep, if_neg hs, hc]
        simp
    | some c =>
      rw [membersLoop, if_neg hs, hc, memberStep, if_neg hs, hc]
      exact ⟨rfl, rfl⟩

theorem loop_flag_iff (gz : String → String) (tar : String → TarEntry) :
    ∀ ms, (membersLoop gz tar ms).2.2 = true ↔ ∃ kv ∈ ms, abortsP tar kv = true := by
  intro ms
  induction ms with
  | nil => simp [membersLoop]
  | cons kv t ih =>
    obtain ⟨k, v⟩ := kv
    by_cases hab : abortsP tar (k, v) = true
    · rw [loop_cons_abort gz tar k v t hab]
      exact ⟨fun _ => ⟨(k, v), List.mem_cons_self _ _, hab⟩, fun _ => rfl⟩
    · rw [(loop_cons_keep gz tar k v t (Bool.not_eq_true _ ▸ hab)).2, ih]
      constructor
      · rintro ⟨kv', h1, h2⟩
        exact ⟨kv', List.mem_cons_of_mem _ h1, h2⟩
      · rintro ⟨kv', h1, h2⟩
        rcases List.mem_cons.mp h1 with rfl | h1'
        · exact absurd h2 hab
        · exact ⟨kv', h1', h2⟩

theorem loop_no_abort_members (gz : String → String) (tar : String → TarEntry) :
    ∀ ms, (∀ kv ∈ ms, abortsP tar kv = false) →
      (membersLoop gz tar ms).1 = ms.map (memberStep tar) := by
  intro ms
  induction ms with
  | nil => intro _; rfl
  | cons kv t ih =>
    intro h
    obtain ⟨k, v⟩ := kv
    rw [(loop_cons_keep gz tar k v t (h _ (List.mem_cons_self _ _))).1, List.map_cons,
      ih (fun x hx => h x (List.mem_cons_of_mem _ hx))]

theorem loop_abort_members (gz : String → String) (tar : String → TarEntry) :
    ∀ ms, (∃ kv ∈ ms, abortsP tar kv = true) →
      (membersLoop gz tar ms).1 =
        (ms.take (ms.findIdx (abortsP tar))).map (memberStep tar) ++
          ms.drop (ms.findIdx (abortsP tar)) := by
  intro ms
  induction ms with
  | nil => rintro ⟨kv, h, -⟩; simp at h
  | cons kv t ih =>
    intro hex
    obtain ⟨k, v⟩ := kv
    by_cases hab : abortsP tar (k, v) = true
    · rw [loop_cons_abort gz tar k v t hab]
      simp [List.findIdx_cons, hab]
    · have habf : abortsP tar (k, v) = false := Bool.not_eq_true _ ▸ hab
      have hext : ∃ kv ∈ t, abortsP tar kv = true := by
        rcases hex with ⟨kv', h1, h2⟩
        rcases List.mem_cons.mp h1 with rfl | h1'
        · exact absurd h2 hab
        · exact ⟨kv', h1', h2⟩
      rw [(loop_cons_keep gz tar k v t habf).1, ih hext]
      simp [List.findIdx_cons, habf]

/-- C2: when some Pending member's entry content cannot be read and its
descriptor is not a symbolic link, `get_manpages_from_package` abandons the
archive at the first such member (returning `True`): members before it keep
their freshly updated records, the abandoning member and all later members are
left exactly as they were, and `flushed` stays `false`; and `flushed` is set
to `true` exactly when the member loop runs to completion without such an
abandonment. -/
theorem C2_missing_nonlink_abandons (gz : String → String) (tar : String → TarEntry)
    (cp : DebianPackage) (hfl : cp.flushed = false) :
    ((∃ kv ∈ cp.members, abortsP tar kv = true) →
        (processRecord gz tar true cp).record.flushed = false ∧
        (processRecord gz tar true cp).ret = some true ∧
        (processRecord gz tar true cp).record.members =
          (cp.members.take (cp.members.findIdx (abortsP tar))).map (memberStep tar) ++
            cp.members.drop (cp.members.findIdx (abortsP tar))) ∧
    ((processRecord gz tar true cp).record.flushed = true ↔
        ∀ kv ∈ cp.members, abortsP tar kv = false) := by
  rw [processRecord, if_neg (by simp [hfl])]
  simp only [if_neg (by simp : ¬(true = false))]
  by_cases hflag : (membersLoop gz tar cp.members).2.2 = true
  · rw [if_pos hflag]
    refine ⟨fun hex => ⟨hfl, rfl, loop_abort_members gz tar cp.members hex⟩, ?_⟩
    rw [hfl]
    simp only [Bool.false_eq_true, false_iff]
    intro hall
    rcases (loop_flag_iff gz tar cp.members).mp hflag with ⟨kv, h1, h2⟩
    rw [hall kv h1] at h2
    exact Bool.false_ne_true h2
  · rw [if_neg hflag]
    refine ⟨fun hex => absurd ((loop_flag_iff gz tar cp.members).mpr hex) hflag, ?_⟩
    simp only [true_iff]
    intro kv hkv
    by_contra habt
    exact hflag ((loop_flag_iff gz tar cp.members).mpr
      ⟨kv, hkv, Bool.not_eq_false _ ▸ habt⟩)

/-- Witness for C2: `exCp2`'s second member is a missing non-symlink; the
first member was extracted, the second and third are untouched, and the
record stays unflushed. -/
theorem C2_missing_nonlink_abandons_witness :
    (processRecord id exTar2 true exCp2).record.flushed = false ∧
    (processRecord id exTar2 true exCp2).ret = some true ∧
    (processRecord id exTar2 true exCp2).record.members =
      (exCp2.members.take (exCp2.members.findIdx (abortsP exTar2))).map
          (memberStep exTar2) ++
        exCp2.members.drop (exCp2.members.findIdx (abortsP exTar2)) :=
  (C2_missing_nonlink_abandons id exTar2 exCp2 rfl).1
    ⟨("bad.1", ⟨"bad.1", 0, none⟩), by decide, by decide⟩

/-- C1 (counterexample): member `a.1` of `exCp1` is a symlink whose entry
content cannot be read; processing sets its state to LinkOnly (2) but records
*no* link target (the `'link'` key stays absent), and member `b.1` — a symlink
whose content was read — gets the `'link'` key while ending in state
Extracted (1), not LinkOnly. -/
theorem C1_counterexample :
    ¬((lookupM (processRecord id exTar1 true exCp1).record.members "a.1").map
        MemberRec.link = some (some (manpage_name "t/x.1.gz"))) ∧
    ¬(∀ kv ∈ (processRecord id exTar1 true exCp1).record.members,
        kv.2.link.isSome = true → kv.2.state = 2) := by
  decide

theorem zip_self_map {α β : Type} (f : α → β) :
    ∀ l : List α, List.zip l (l.map f) = l.map (fun a => (a, f a)) := by
  intro l
  induction l with
  | nil => rfl
  | cons a t ih => simp [List.zip_cons_cons, ih]

theorem memberStep_skip (tar : String → TarEntry) (k : String) (v : MemberRec)
    (hs : v.state ≠ 0) : memberStep tar (k, v) = (k, v) := by
  simp [memberStep, hs]

theorem memberStep_none (tar : String → TarEntry) (k : String) (v : MemberRec)
    (hs : v.state = 0) (hc : (tar k).contents = none) :
    memberStep tar (k, v) = (k, { v with state := 2 }) := by
  simp [memberStep, hs, hc]

theorem memberStep_some_sym (tar : String → TarEntry) (k : String) (v : MemberRec)
    (c : String) (hs : v.state = 0) (hc : (tar k).contents = some c)
    (hy : (tar k).issym = true) :
    memberStep tar (k, v) =
      (k, { v with state := 1, link := some (manpage_name (tar k).linkname) }) := by
  simp [memberStep, hs, hc, hy]

theorem memberStep_some_nosym (tar : String → TarEntry) (k : String) (v : MemberRec)
    (c : String) (hs : v.state = 0) (hc : (tar k).contents = some c)
    (hy : (tar k).issym = false) :
    memberStep tar (k, v) = (k, { v with state := 1 }) := by
  simp [memberStep, hs, hc, hy]

/-- C1 (amended): on a run whose member loop is not abandoned, a Pending
member whose entry content cannot be read and whose descriptor is a symbolic
link ends in state LinkOnly with its record otherwise untouched — in
particular no link target is recorded for it; the link-target field is newly
set only for members whose content was read and whose descriptor is a
symbolic link, and those end in state Extracted with the target's canonical
name recorded. -/
theorem C1_missing_symlink_records_no_target (gz : String → String)
    (tar : String → TarEntry) (cp : DebianPackage) (hfl : cp.flushed = false)
    (hnoab : ∀ kv ∈ cp.members, abortsP tar kv = false) :
    ∀ p ∈ List.zip cp.members (processRecord gz tar true cp).record.members,
      p.2.1 = p.1.1 ∧
      (p.1.2.state = 0 → (tar p.1.1).contents = none → (tar p.1.1).issym = true →
        p.2.2 = { p.1.2 with state := 2 }) ∧
      (p.2.2.link ≠ p.1.2.link →
        p.2.2.state = 1 ∧ (tar p.1.1).issym = true ∧
        p.2.2.link = some (manpage_name (tar p.1.1).linkname)) := by
  have hflag : (membersLoop gz tar cp.members).2.2 = false := by
    by_contra h
    rcases (loop_flag_iff gz tar cp.members).mp (Bool.not_eq_false _ ▸ h) with
      ⟨kv, h1, h2⟩
    rw [hnoab kv h1] at h2
    exact Bool.false_ne_true h2
  have hmem : (processRecord gz tar true cp).record.members =
      cp.members.map (memberStep tar) := by
    rw [processRecord, if_neg (by simp [hfl]), if_neg (by simp : ¬(true = false)),
      if_neg (by simp [hflag])]
    exact loop_no_abort_members gz tar cp.members hnoab
  rw [hmem, zip_self_map]
  intro p hp
  rcases List.mem_map.mp hp with ⟨⟨k, v⟩, hkv, rfl⟩
  by_cases hs : v.state ≠ 0
  · rw [memberStep_skip tar k v hs]
    exact ⟨rfl, fun h0 => absurd h0 hs, fun hne => absurd rfl hne⟩
  · have hs0 : v.state = 0 := not_not.mp hs
    cases hc : (tar k).contents with
    | none =>
      rw [memberStep_none tar k v hs0 hc]
      exact ⟨rfl, fun _ _ _ => rfl, fun hne => absurd rfl hne⟩
    | some c =>
      cases hsym : (tar k).issym with
      | false =>
        rw [memberStep_some_nosym tar k v c hs0 hc hsym]
        exact ⟨rfl, fun _ hn _ => absurd hn (by simp), fun hne => absurd rfl hne⟩
      | true =>
        rw [memberStep_some_sym tar k v c hs0 hc hsym]
        exact ⟨rfl, fun _ hn _ => absurd hn (by simp), fun _ => ⟨rfl, rfl, rfl⟩⟩

/-- Witness for C1: the amended behavior on `exCp1` — the missing symlink
`a.1` ends as its old record with only the state changed to 2 (no link
recorded), and the readable symlink `b.1`, whose link field did change, ends
in state 1 with the canonical target name. -/
theorem C1_missing_symlink_records_no_target_witness :
    ({ name := "a.1", state := 2, link := none } : MemberRec) =
      { ({ name := "a.1", state := 0, link := none } : MemberRec) with state := 2 } ∧
    ({ name := "b.1", state := 1, link := some "y.1" } : MemberRec).state = 1 ∧
    (exTar1 "b.1").issym = true ∧
    ({ name := "b.1", state := 1, link := some "y.1" } : MemberRec).link =
      some (manpage_name (exTar1 "b.1").linkname) :=
  ⟨(C1_missing_symlink_records_no_target id exTar1 exCp1 rfl (by decide)
      (("a.1", ⟨"a.1", 0, none⟩), ("a.1", ⟨"a.1", 2, none⟩)) (by decide)).2.1
        rfl (by decide) (by decide),
   (C1_missing_symlink_records_no_target id exTar1 exCp1 rfl (by decide)
      (("b.1", ⟨"b.1", 0, none⟩), ("b.1", ⟨"b.1", 1, some "y.1"⟩)) (by decide)).2.2
        (by decide)⟩

theorem lookupC_setKey_self : ∀ (c : Cache) (k : PackageName) (r : DebianPackage),
    lookupC (setKey c k r) k = some r := by
  intro c k r
  induction c with
  | nil => simp [setKey, lookupC]
  | cons e t ih =>
    obtain ⟨k', r'⟩ := e
    by_cases h : k' = k
    · simp [setKey, h, lookupC]
    · simp [setKey, h, lookupC, ih]

theorem lookupC_setKey_ne : ∀ (c : Cache) (k k2 : PackageName) (r : DebianPackage),
    k ≠ k2 → lookupC (setKey c k r) k2 = lookupC c k2 := by
  intro c k k2 r hne
  induction c with
  | nil => simp [setKey, lookupC, hne]
  | cons e t ih =>
    obtain ⟨k', r'⟩ := e
    by_cases h : k' = k
    · subst h
      simp [setKey, lookupC, hne]
    · simp [setKey, h, lookupC, ih]

theorem setKey_id : ∀ (c : Cache) (k : PackageName) (r : DebianPackage),
    lookupC c k = some r → setKey c k r = c := by
  intro c k r
  induction c with
  | nil => intro h; simp [lookupC] at h
  | cons e t ih =>
    obtain ⟨k', r'⟩ := e
    intro h
    by_cases hk : k' = k
    · rw [lookupC, if_pos hk] at h
      obtain rfl : r' = r := Option.some.inj h
      rw [setKey, if_pos hk, hk]
    · rw [lookupC, if_neg hk] at h
      rw [setKey, if_neg hk, ih h]

theorem add_member_fields (p : DebianPackage) (f : String) :
    (add_member p f).ver = p.ver ∧ (add_member p f).url = p.url ∧
      (add_member p f).desc = p.desc ∧ (add_member p f).todelete = p.todelete := by
  simp only [add_member]
  cases h : lookupM p.members (normalize_member f) <;> simp [h]

theorem add_member_id (p : DebianPackage) (f : String)
    (h : (lookupM p.members (normalize_member f)).isSome = true) :
    add_member p f = p := by
  simp only [add_member]
  cases hm : lookupM p.members (normalize_member f)
  · rw [hm] at h; simp at h
  · rfl

theorem addMemberCache_pres (c : Cache) (kk : PackageName) (f : String)
    (k : PackageName) (r : DebianPackage) (h : lookupC c k = some r) :
    ∃ r2, lookupC (addMemberCache c kk f) k = some r2 ∧ r2.ver = r.ver ∧
      r2.url = r.url ∧ r2.desc = r.desc ∧ r2.todelete = r.todelete := by
  by_cases hk : kk = k
  · subst hk
    rw [addMemberCache, h]
    refine ⟨add_member r f, ?_, add_member_fields r f⟩
    simpa using lookupC_setKey_self c kk (add_member r f)
  · refine ⟨r, ?_, rfl, rfl, rfl, rfl⟩
    rw [addMemberCache, lookupC_setKey_ne _ _ _ _ hk, h]

theorem addMemberCache_id (c : Cache) (kk : PackageName) (f : String)
    (h : memberKnown c (kk, f) = true) : addMemberCache c kk f = c := by
  rw [memberKnown] at h
  cases hl : lookupC c kk with
  | none => rw [hl] at h; simp at h
  | some r =>
    rw [hl] at h
    rw [addMemberCache, hl]
    simp only [Option.getD_some]
    rw [add_member_id r f h]
    exact setKey_id c kk r hl

theorem addMemberCache_ne (c : Cache) (kk : PackageName) (f : String)
    (k : PackageName) (hne : kk ≠ k) :
    lookupC (addMemberCache c kk f) k = lookupC c k := by
  rw [addMemberCache, lookupC_setKey_ne _ _ _ _ hne]

theorem insertSeen_sub (s : List PackageName) (kk a : PackageName) (h : a ∈ s) :
    a ∈ insertSeen s kk := by
  rw [insertSeen]
  split
  · exact h
  · exact List.mem_append_left _ h

theorem insertSeen_self (s : List PackageName) (kk : PackageName) :
    kk ∈ insertSeen s kk := by
  rw [insertSeen]
  split
  · assumption
  · exact List.mem_append_right _ (List.mem_singleton_self kk)

theorem pairAdds_pres (f : String) : ∀ (ks : List PackageName)
    (cs : Cache × List PackageName) (k : PackageName) (r : DebianPackage),
    lookupC cs.1 k = some r →
    ∃ r2, lookupC (ks.foldl (fun cs kk => pairAdd cs kk f) cs).1 k = some r2 ∧
      r2.ver = r.ver ∧ r2.url = r.url ∧ r2.desc = r.desc ∧
      r2.todelete = r.todelete := by
  intro ks
  induction ks with
  | nil => exact fun cs k r h => ⟨r, h, rfl, rfl, rfl, rfl⟩
  | cons kk t ih =>
    intro cs k r h
    rw [List.foldl_cons]
    obtain ⟨r2, h2, hv2, hu2, hd2, ht2⟩ := addMemberCache_pres cs.1 kk f k r h
    obtain ⟨r3, h3, hv3, hu3, hd3, ht3⟩ := ih (pairAdd cs kk f) k r2 h2
    exact ⟨r3, h3, hv3.trans hv2, hu3.trans hu2, hd3.trans hd2, ht3.trans ht2⟩

theorem pairAdds_seen_sub (f : String) : ∀ (ks : List PackageName)
    (cs : Cache × List PackageName) (a : PackageName), a ∈ cs.2 →
    a ∈ (ks.foldl (fun cs kk => pairAdd cs kk f) cs).2 := by
  intro ks
  induction ks with
  | nil => exact fun cs a h => h
  | cons kk t ih =>
    intro cs a h
    rw [List.foldl_cons]
    exact ih (pairAdd cs kk f) a (insertSeen_sub cs.2 kk a h)

theorem pairAdds_untouched (f : String) (k : PackageName) : ∀ (ks : List PackageName)
    (cs : Cache × List PackageName),
    k ∉ (ks.foldl (fun cs kk => pairAdd cs kk f) cs).2 →
    lookupC (ks.foldl (fun cs kk => pairAdd cs kk f) cs).1 k = lookupC cs.1 k ∧
      k ∉ cs.2 := by
  intro ks
  induction ks with
  | nil => exact fun cs h => ⟨rfl, h⟩
  | cons kk t ih =>
    intro cs hk
    rw [List.foldl_cons] at hk ⊢
    obtain ⟨h1, h2⟩ := ih (pairAdd cs kk f) hk
    have hkk : kk ≠ k := by
      intro e
      exact h2 (e ▸ insertSeen_self cs.2 kk)
    refine ⟨?_, fun hin => h2 (insertSeen_sub cs.2 kk k hin)⟩
    rw [h1]
    exact addMemberCache_ne cs.1 kk f k hkk

theorem pairAdds_id (cache : Cache) (f : String) : ∀ (ks : List PackageName)
    (s : List PackageName), (∀ kk ∈ ks, memberKnown cache (kk, f) = true) →
    (ks.foldl (fun cs kk => pairAdd cs kk f) (cache, s)).1 = cache := by
  intro ks
  induction ks with
  | nil => exact fun s _ => rfl
  | cons kk t ih =>
    intro s h
    rw [List.foldl_cons]
    have hstep : pairAdd (cache, s) kk f = (cache, insertSeen s kk) := by
      rw [pairAdd, addMemberCache_id cache kk f (h kk (List.mem_cons_self _ _))]
    rw [hstep]
    exact ih (insertSeen s kk) (fun x hx => h x (List.mem_cons_of_mem _ hx))

theorem scan_pres : ∀ (lines : List String) (ihb : Bool)
    (cs : Cache × List PackageName) (out : Cache × List PackageName),
    scanAux ihb cs lines = .ok out → ∀ (k : PackageName) (r : DebianPackage),
    lookupC cs.1 k = some r →
    ∃ r2, lookupC out.1 k = some r2 ∧ r2.ver = r.ver ∧ r2.url = r.url ∧
      r2.desc = r.desc ∧ r2.todelete = r.todelete := by
  intro lines
  induction lines with
  | nil =>
    intro ihb cs out hok k r h
    rw [scanAux] at hok
    obtain rfl : cs = out := Except.ok.inj hok
    exact ⟨r, h, rfl, rfl, rfl, rfl⟩
  | cons line rest irec =>
    intro ihb cs out hok k r h
    rw [scanAux] at hok
    by_cases hib : ihb = true
    · rw [if_pos hib] at hok
      by_cases hpfx : isPfx "FILE".data line.data = true
      · rw [if_pos hpfx] at hok
        exact irec false cs out hok k r h
      · rw [if_neg hpfx] at hok
        exact irec true cs out hok k r h
    · rw [if_neg hib] at hok
      cases hrs : pyRsplit1 line.data with
      | none => rw [hrs] at hok; exact absurd hok (by simp)
      | some p =>
        obtain ⟨fl, loc⟩ := p
        rw [hrs] at hok
        simp only [] at hok
        by_cases him : is_manpage ⟨fl⟩ = false
        · rw [if_pos him] at hok
          exact irec false cs out hok k r h
        · rw [if_neg him] at hok
          cases hpl : parseLocs loc with
          | error e => rw [hpl] at hok; exact absurd hok (by simp)
          | ok ks =>
            rw [hpl] at hok
            obtain ⟨r2, h2, hv2, hu2, hd2, ht2⟩ := pairAdds_pres ⟨fl⟩ ks cs k r h
            obtain ⟨r3, h3, hv3, hu3, hd3, ht3⟩ := irec false _ out hok k r2 h2
            exact ⟨r3, h3, hv3.trans hv2, hu3.trans hu2, hd3.trans hd2,
              ht3.trans ht2⟩

theorem scan_untouched (k : PackageName) : ∀ (lines : List String) (ihb : Bool)
    (cs : Cache × List PackageName) (out : Cache × List PackageName),
    scanAux ihb cs lines = .ok out → k ∉ out.2 →
    lookupC out.1 k = lookupC cs.1 k ∧ k ∉ cs.2 := by
  intro lines
  induction lines with
  | nil =>
    intro ihb cs out hok habs
    rw [scanAux] at hok
    obtain rfl : cs = out := Except.ok.inj hok
    exact ⟨rfl, habs⟩
  | cons line rest irec =>
    intro ihb cs out hok habs
    rw [scanAux] at hok
    by_cases hib : ihb = true
    · rw [if_pos hib] at hok
      by_cases hpfx : isPfx "FILE".data line.data = true
      · rw [if_pos hpfx] at hok
        exact irec false cs out hok habs
      · rw [if_neg hpfx] at hok
        exact irec true cs out hok habs
    · rw [if_neg hib] at hok
      cases hrs : pyRsplit1 line.data with
      | none => rw [hrs] at hok; exact absurd hok (by simp)
      | some p =>
        obtain ⟨fl, loc⟩ := p
        rw [hrs] at hok
        simp only [] at hok
        by_cases him : is_manpage ⟨fl⟩ = false
        · rw [if_pos him] at hok
          exact irec false cs out hok habs
        · rw [if_neg him] at hok
          cases hpl : parseLocs loc with
          | error e => rw [hpl] at hok; exact absurd hok (by simp)
          | ok ks =>
            rw [hpl] at hok
            obtain ⟨h1, h2⟩ := irec false _ out hok habs
            obtain ⟨h3, h4⟩ := pairAdds_untouched ⟨fl⟩ k ks cs h2
            exact ⟨h1.trans h3, h4⟩

theorem scan_id (cache : Cache) : ∀ (lines : List String) (ihb : Bool)
    (s : List PackageName) (out : Cache × List PackageName),
    scanAux ihb (cache, s) lines = .ok out →
    (∀ kf ∈ scanPairsAux ihb lines, memberKnown cache kf = true) →
    out.1 = cache := by
  intro lines
  induction lines with
  | nil =>
    intro ihb s out hok _
    rw [scanAux] at hok
    obtain rfl : (cache, s) = out := Except.ok.inj hok
    rfl
  | cons line rest irec =>
    intro ihb s out hok hkn
    rw [scanAux] at hok
    rw [scanPairsAux] at hkn
    by_cases hib : ihb = true
    · rw [if_pos hib] at hok
      rw [if_pos hib] at hkn
      by_cases hpfx : isPfx "FILE".data line.data = true
      · rw [if_pos hpfx] at hok
        rw [if_pos hpfx] at hkn
        exact irec false s out hok hkn
      · rw [if_neg hpfx] at hok
        rw [if_neg hpfx] at hkn
        exact irec true s out hok hkn
    · rw [if_neg hib] at hok
      rw [if_neg hib] at hkn
      cases hrs : pyRsplit1 line.data with
      | none => rw [hrs] at hok; exact absurd hok (by simp)
      | some p =>
        obtain ⟨fl, loc⟩ := p
        rw [hrs] at hok
        rw [hrs] at hkn
        simp only [] at hok
        simp only [] at hkn
        by_cases him : is_manpage ⟨fl⟩ = false
        · rw [if_pos him] at hok
          rw [if_pos him] at hkn
          exact irec false s out hok hkn
        · rw [if_neg him] at hok
          rw [if_neg him] at hkn
          cases hpl : parseLocs loc with
          | error e => rw [hpl] at hok; exact absurd hok (by simp)
          | ok ks =>
            rw [hpl] at hok
            rw [hpl] at hkn
            simp only [] at hok
            simp only [] at hkn
            have hks : ∀ kk ∈ ks, memberKnown cache (kk, (⟨fl⟩ : String)) = true := by
              intro kk hkk
              exact hkn (kk, ⟨fl⟩)
                (List.mem_append_left _ (List.mem_map.mpr ⟨kk, hkk, rfl⟩))
            have hid : (ks.foldl (fun cs kk => pairAdd cs kk ⟨fl⟩) (cache, s)).1 =
                cache := pairAdds_id cache ⟨fl⟩ ks s hks
            have hrest : ∀ kf ∈ scanPairsAux false rest, memberKnown cache kf = true :=
              fun kf hkf => hkn kf (List.mem_append_right _ hkf)
            rw [show (ks.foldl (fun cs kk => pairAdd cs kk ⟨fl⟩) (cache, s)) =
                (cache, (ks.foldl (fun cs kk => pairAdd cs kk ⟨fl⟩) (cache, s)).2) from
              Prod.ext hid rfl] at hok
            exact irec false _ out hok hrest

theorem lookupC_markToDelete (seen : List PackageName) :
    ∀ (c : Cache) (k : PackageName),
    lookupC (markToDelete c seen) k =
      (lookupC c k).map (fun r => if k ∈ seen then r else { r with todelete := true }) := by
  intro c
  induction c with
  | nil => intro k; rfl
  | cons e t ih =>
    intro k
    obtain ⟨k', r'⟩ := e
    have hcons : markToDelete ((k', r') :: t) seen =
        (k', if k' ∈ seen then r' else { r' with todelete := true }) ::
          markToDelete t seen := by
      by_cases hseen : k' ∈ seen <;> simp [markToDelete, hseen]
    rw [hcons]
    by_cases h : k' = k
    · subst h
      rw [lookupC, if_pos rfl, lookupC, if_pos rfl]
      rfl
    · rw [lookupC, if_neg h, lookupC, if_neg h, ih k]

theorem updateMetaStep_frame (c : Cache) (b : Stanza) (c2 : Cache) (k : PackageName)
    (h : updateMetaStep c b = .ok c2)
    (hne : (⟨b.sect, b.package⟩ : PackageName) ≠ k) :
    lookupC c2 k = lookupC c k := by
  rw [updateMetaStep] at h
  cases hl : lookupC c ⟨b.sect, b.package⟩ with
  | none =>
    rw [hl] at h
    simp only [] at h
    obtain rfl : c = c2 := Except.ok.inj h
    rfl
  | some r =>
    rw [hl] at h
    simp only [] at h
    cases hv : r.ver with
    | none => rw [hv] at h; exact absurd h (by simp)
    | some v =>
      rw [hv] at h
      simp only [] at h
      by_cases hvv : v ≠ b.version
      · rw [if_pos hvv] at h
        obtain rfl : setKey c ⟨b.sect, b.package⟩
            { r with ver := some b.version, url := some b.filename,
                     desc := some b.description, flushed := false } = c2 :=
          Except.ok.inj h
        exact lookupC_setKey_ne _ _ _ _ hne
      · rw [if_neg hvv] at h
        obtain rfl : c = c2 := Except.ok.inj h
        rfl

theorem metaFold_frame (k : PackageName) : ∀ (l : List Stanza) (c c' : Cache),
    metaFold c l = .ok c' →
    (∀ b ∈ l, (⟨b.sect, b.package⟩ : PackageName) ≠ k) →
    lookupC c' k = lookupC c k := by
  intro l
  induction l with
  | nil =>
    intro c c' h _
    obtain rfl : c = c' := Except.ok.inj h
    rfl
  | cons b t ih =>
    intro c c' h hne
    rw [metaFold] at h
    cases hstep : updateMetaStep c b with
    | error e => rw [hstep] at h; exact absurd h (by simp)
    | ok c2 =>
      rw [hstep] at h
      simp only [] at h
      have h1 := ih c2 c' h (fun x hx => hne x (List.mem_cons_of_mem _ hx))
      have h2 := updateMetaStep_frame c b c2 k hstep (hne b (List.mem_cons_self _ _))
      exact h1.trans h2

theorem metaFold_keep (k : PackageName) (rK : DebianPackage) :
    ∀ (l : List Stanza) (c c' : Cache),
    metaFold c l = .ok c' → lookupC c k = some rK →
    (∀ b ∈ l, (⟨b.sect, b.package⟩ : PackageName) = k → rK.ver = some b.version) →
    lookupC c' k = some rK := by
  intro l
  induction l with
  | nil =>
    intro c c' h hk _
    obtain rfl : c = c' := Except.ok.inj h
    exact hk
  | cons b t ih =>
    intro c c' h hk hmeta
    rw [metaFold] at h
    by_cases hb : (⟨b.sect, b.package⟩ : PackageName) = k
    · have hv := hmeta b (List.mem_cons_self _ _) hb
      have hstep : updateMetaStep c b = .ok c := by
        simp [updateMetaStep, hb, hk, hv]
      rw [hstep] at h
      simp only [] at h
      exact ih c c' h hk (fun x hx => hmeta x (List.mem_cons_of_mem _ hx))
    · cases hstep : updateMetaStep c b with
      | error e => rw [hstep] at h; exact absurd h (by simp)
      | ok c2 =>
        rw [hstep] at h
        simp only [] at h
        have h2 := updateMetaStep_frame c b c2 k hstep hb
        exact ih c2 c' h (h2.trans hk) (fun x hx => hmeta x (List.mem_cons_of_mem _ hx))

theorem metaFold_nop : ∀ (l : List Stanza) (c : Cache),
    (∀ b ∈ l, verMatches c b = true) → metaFold c l = .ok c := by
  intro l
  induction l with
  | nil => intro c _; rfl
  | cons b t ih =>
    intro c h
    have hb := h b (List.mem_cons_self _ _)
    rw [verMatches] at hb
    have hstep : updateMetaStep c b = .ok c := by
      cases hl : lookupC c ⟨b.sect, b.package⟩ with
      | none => simp [updateMetaStep, hl]
      | some r =>
        rw [hl] at hb
        simp only [beq_iff_eq] at hb
        simp [updateMetaStep, hl, hb]
    rw [metaFold, hstep]
    simp only []
    exact ih c (fun x hx => h x (List.mem_cons_of_mem _ hx))

theorem metaFold_append_ok : ∀ (A B : List Stanza) (c c' : Cache),
    metaFold c (A ++ B) = .ok c' →
    ∃ m, metaFold c A = .ok m ∧ metaFold m B = .ok c' := by
  intro A
  induction A with
  | nil => exact fun B c c' h => ⟨c, rfl, h⟩
  | cons b t ih =>
    intro B c c' h
    rw [List.cons_append, metaFold] at h
    cases hstep : updateMetaStep c b with
    | error e => rw [hstep] at h; exact absurd h (by simp)
    | ok c2 =>
      rw [hstep] at h
      simp only [] at h
      obtain ⟨m, h1, h2⟩ := ih B c2 c' h
      refine ⟨m, ?_, h2⟩
      rw [metaFold, hstep]
      exact h1

theorem update_cache_decomp (cache : Cache) (contents : List String)
    (stanzas : List Stanza) (c' : Cache)
    (h : update_cache cache contents stanzas = .ok c') :
    ∃ c1 seen, contentsScan cache contents = .ok (c1, seen) ∧
      metaFold (markToDelete c1 seen) stanzas = .ok c' := by
  rw [update_cache] at h
  cases hs : contentsScan cache contents with
  | error e => rw [hs] at h; exact absurd h (by simp)
  | ok p =>
    obtain ⟨c1, seen⟩ := p
    rw [hs] at h
    simp only [] at h
    exact ⟨c1, seen, rfl, h⟩

/-- C3: when the metadata stream's sole stanza for a cached key reports a
version different from the cached one, `update_cache` replaces that record's
version, location and description with the stanza's values and resets its
`flushed` flag to `false`. -/
theorem C3_version_change_resets (cache : Cache) (contents : List String)
    (A B : List Stanza) (s : Stanza) (k : PackageName) (r : DebianPackage)
    (V1 : String) (c' : Cache)
    (hk : lookupC cache k = some r) (hv : r.ver = some V1)
    (hA : ∀ b ∈ A, (⟨b.sect, b.package⟩ : PackageName) ≠ k)
    (hB : ∀ b ∈ B, (⟨b.sect, b.package⟩ : PackageName) ≠ k)
    (hs : (⟨s.sect, s.package⟩ : PackageName) = k)
    (hV : s.version ≠ V1)
    (hok : update_cache cache contents (A ++ s :: B) = .ok c') :
    ∃ r', lookupC c' k = some r' ∧ r'.ver = some s.version ∧
      r'.url = some s.filename ∧ r'.desc = some s.description ∧
      r'.flushed = false := by
  obtain ⟨c1, seen, hscan, hfold⟩ :=
    update_cache_decomp cache contents (A ++ s :: B) c' hok
  obtain ⟨r1, h1, hv1, hu1, hd1, ht1⟩ :=
    scan_pres contents true (cache, []) (c1, seen) hscan k r hk
  obtain ⟨r2, h2, hv2⟩ : ∃ r2, lookupC (markToDelete c1 seen) k = some r2 ∧
      r2.ver = some V1 := by
    rw [lookupC_markToDelete seen c1 k, h1]
    by_cases hmem : k ∈ seen
    · exact ⟨r1, by simp [hmem], hv1.trans hv⟩
    · exact ⟨{ r1 with todelete := true }, by simp [hmem], hv1.trans hv⟩
  obtain ⟨cA, hfA, hfsB⟩ := metaFold_append_ok A (s :: B) _ c' hfold
  have hA' : lookupC cA k = some r2 :=
    (metaFold_frame k A _ cA hfA hA).trans h2
  have hlook : lookupC cA ⟨s.sect, s.package⟩ = some r2 := by rw [hs]; exact hA'
  have hstep : updateMetaStep cA s = .ok (setKey cA ⟨s.sect, s.package⟩
      { r2 with ver := some s.version, url := some s.filename,
                desc := some s.description, flushed := false }) := by
    rw [updateMetaStep, hlook]
    simp only []
    rw [hv2]
    simp only []
    rw [if_pos (Ne.symm hV)]
  rw [metaFold, hstep] at hfsB
  simp only [] at hfsB
  have hself : lookupC (setKey cA ⟨s.sect, s.package⟩
      { r2 with ver := some s.version, url := some s.filename,
                desc := some s.description, flushed := false }) k =
      some { r2 with ver := some s.version, url := some s.filename,
                     desc := some s.description, flushed := false } := by
    rw [hs]
    exact lookupC_setKey_self cA k _
  exact ⟨_, (metaFold_frame k B _ c' hfsB hB).trans hself, rfl, rfl, rfl, rfl⟩

/-- C6: an archive key present in the loaded cache but absent from the fresh
Contents scan gets its `todelete` marker set by `update_cache` and nothing
else changes in its record — members, version, location, description and
`flushed` are untouched (the metadata stream reporting the cached version) —
and the record is never removed from the cache. -/
theorem C6_disappeared_marked_to_delete (cache : Cache) (contents : List String)
    (stanzas : List Stanza) (k : PackageName) (r : DebianPackage)
    (c1 : Cache) (seen : List PackageName) (c' : Cache)
    (hk : lookupC cache k = some r)
    (hscan : contentsScan cache contents = .ok (c1, seen))
    (habs : k ∉ seen)
    (hmeta : ∀ b ∈ stanzas,
      (⟨b.sect, b.package⟩ : PackageName) = k → r.ver = some b.version)
    (hok : update_cache cache contents stanzas = .ok c') :
    lookupC c' k = some { r with todelete := true } := by
  rw [update_cache, hscan] at hok
  simp only [] at hok
  have h1 : lookupC c1 k = some r :=
    ((scan_untouched k contents true (cache, []) (c1, seen) hscan habs).1).trans hk
  have h2 : lookupC (markToDelete c1 seen) k = some { r with todelete := true } := by
    rw [lookupC_markToDelete seen c1 k, h1]
    simp [habs]
  exact metaFold_keep k { r with todelete := true } stanzas _ c' hok h2 hmeta

/-- C7: `update_cache` is a no-op on every record's `flushed` flag and on
every member's state when the loaded cache already reflects the current
inputs — every registration of the Contents scan hits an already-cached
member, every cached key is among the scanned keys, and every stanza reports
the cached version. -/
theorem C7_update_noop_when_synced (cache : Cache) (contents : List String)
    (stanzas : List Stanza) (c' : Cache)
    (hok : update_cache cache contents stanzas = .ok c')
    (hmem : ∀ kf ∈ scanPairs contents, memberKnown cache kf = true)
    (_hkeys : ∀ e ∈ cache, e.1 ∈ (scanPairs contents).map Prod.fst)
    (hver : ∀ b ∈ stanzas, verMatches cache b = true) :
    ∀ k r, lookupC cache k = some r → ∃ r', lookupC c' k = some r' ∧
      r'.flushed = r.flushed ∧
      ∀ m, (lookupM r'.members m).map MemberRec.state =
        (lookupM r.members m).map MemberRec.state := by
  obtain ⟨c1, seen, hscan, hfold⟩ :=
    update_cache_decomp cache contents stanzas c' hok
  have hc1 : c1 = cache := scan_id cache contents true [] (c1, seen) hscan hmem
  subst hc1
  have hverm : ∀ b ∈ stanzas, verMatches (markToDelete c1 seen) b = true := by
    intro b hb
    have h := hver b hb
    rw [verMatches] at h ⊢
    rw [lookupC_markToDelete seen c1 ⟨b.sect, b.package⟩]
    cases hl : lookupC c1 ⟨b.sect, b.package⟩ with
    | none => simp
    | some rr =>
      rw [hl] at h
      simp only [] at h
      by_cases hm : (⟨b.sect, b.package⟩ : PackageName) ∈ seen <;> simp [hm, h]
  have hfix : metaFold (markToDelete c1 seen) stanzas = .ok (markToDelete c1 seen) :=
    metaFold_nop stanzas _ hverm
  have hc' : c' = markToDelete c1 seen := Except.ok.inj (hfold.symm.trans hfix)
  subst hc'
  intro k r hkr
  refine ⟨if k ∈ seen then r else { r with todelete := true }, ?_, ?_, ?_⟩
  · rw [lookupC_markToDelete seen c1 k, hkr]
    rfl
  · by_cases hm : k ∈ seen <;> simp [hm]
  · intro m
    by_cases hm : k ∈ seen <;> simp [hm]

/-- Witness for C3: a one-record cache at version `"1"` and a single stanza at
version `"2"`; the record ends at version `"2"` with the stanza's location and
description and `flushed = false`. -/
theorem C3_version_change_resets_witness :
    ∃ r', lookupC exOut3 exK3 = some r' ∧ r'.ver = some "2" ∧
      r'.url = some "pool/ls.deb" ∧ r'.desc = some "GNU ls" ∧
      r'.flushed = false :=
  C3_version_change_resets exCache3 [] [] [] exS3 exK3 exR3 "1" exOut3
    rfl rfl (by simp) (by simp) rfl (by decide) rfl

/-- Witness for C6: the cached key is absent from a marker-only Contents
stream; its record ends with `todelete = true` and nothing else changed. -/
theorem C6_disappeared_marked_to_delete_witness :
    lookupC exOut6 exK6 = some { exR6 with todelete := true } :=
  C6_disappeared_marked_to_delete exCache6 ["FILE LOCATION"] [exS6] exK6 exR6
    exCache6 [] exOut6 rfl rfl (by simp) (by decide) rfl

/-- Witness for C7: a cache already reflecting `exContents7` and a
same-version stanza; `update_cache` leaves the record's `flushed` flag and
member states unchanged. -/
theorem C7_update_noop_when_synced_witness :
    ∃ r', lookupC exCache7 exK7 = some r' ∧ r'.flushed = exR7.flushed ∧
      ∀ m, (lookupM r'.members m).map MemberRec.state =
        (lookupM exR7.members m).map MemberRec.state :=
  C7_update_noop_when_synced exCache7 exContents7 [exS7] exCache7 rfl
    (by decide) (by decide) (by decide) exK7 exR7 rfl
